import Mathlib

/-!
Shallow embedding of the tsunami/epizentrum pixelflut client core, together with
proofs about the embedded operations.  Every definition mirrors the Rust source
file given in its doc comment; machine integers are modelled as `Nat` with the
overflow-relevant reductions written out explicitly.
-/

namespace Tsunami

/-! ### Draw-order generator (src/epizentrum/src/draw_strategy.rs) -/

/-- Mirrors `enum DrawStrategy`. -/
inductive DrawStrategy where
  | Random
  | Rows (reversed : Bool)
  | Columns (reversed : Bool)
deriving DecidableEq

/-- Mirrors `generate_draw_order`: `(0..size.0).flat_map(|x| (0..size.1).map(move |y| mapping(x, y)))`. -/
def generate_draw_order (size : Nat × Nat) (mapping : Nat → Nat → Nat × Nat) :
    List (Nat × Nat) :=
  (List.range size.1).flatMap (fun x => (List.range size.2).map (fun y => mapping x y))

/-- Removes the element at index `i`, returning it and the remaining list. -/
def extractAt : List α → Nat → Option (α × List α)
  | [], _ => none
  | x :: xs, 0 => some (x, xs)
  | x :: xs, i + 1 => (extractAt xs i).map (fun p => (p.1, x :: p.2))

/-- Fuel-indexed driver for `shuffle` (the fuel starts at the list length). -/
def shuffleGo : Nat → List α → (Nat → Nat) → Nat → List α
  | 0, _, _, _ => []
  | fuel + 1, l, rng, step =>
    match extractAt l (rng step % l.length) with
    | some (y, ys) => y :: shuffleGo fuel ys rng (step + 1)
    | none => []

/-- Modelled from the spec: `random` applies the `rand` crate's Fisher–Yates
`SliceRandom::shuffle` (library code, not part of this repository) with a
process-local RNG.  The shuffle is modelled as repeated extraction of the
oracle-chosen element; for every oracle the result is a permutation of the
input, which is all the development relies on. -/
def shuffle (l : List α) (rng : Nat → Nat) : List α :=
  shuffleGo l.length l rng 0

/-- Mirrors `DrawStrategy::draw_order`.  `Rows` swaps the size components and the
mapping exactly as the source does; `Random` shuffles the order produced by the
identity mapping. -/
def DrawStrategy.draw_order (s : DrawStrategy) (size : Nat × Nat) (rng : Nat → Nat) :
    List (Nat × Nat) :=
  match s with
  | .Random => shuffle (generate_draw_order size (fun x y => (x, y))) rng
  | .Rows reversed =>
    let o := generate_draw_order (size.2, size.1) (fun x y => (y, x))
    if reversed then o.reverse else o
  | .Columns reversed =>
    let o := generate_draw_order size (fun x y => (x, y))
    if reversed then o.reverse else o

theorem extractAt_spec {l : List α} {i : Nat} {y : α} {ys : List α}
    (h : extractAt l i = some (y, ys)) : l.Perm (y :: ys) ∧ ys.length + 1 = l.length := by
  induction l generalizing i y ys with
  | nil => simp [extractAt] at h
  | cons x xs ih =>
    cases i with
    | zero =>
      simp [extractAt] at h
      obtain ⟨h1, h2⟩ := h
      subst h1; subst h2
      exact ⟨List.Perm.refl _, by simp⟩
    | succ j =>
      cases hj : extractAt xs j with
      | none => simp [extractAt, hj] at h
      | some p =>
        obtain ⟨z, zs⟩ := p
        simp [extractAt, hj] at h
        obtain ⟨h1, h2⟩ := h
        obtain ⟨hp, hl⟩ := ih hj
        subst h2
        constructor
        · rw [← h1]
          exact (hp.cons x).trans (List.Perm.swap z x zs)
        · simp
          omega

theorem extractAt_isSome {l : List α} {i : Nat} (h : i < l.length) :
    ∃ y ys, extractAt l i = some (y, ys) := by
  induction l generalizing i with
  | nil => simp at h
  | cons x xs ih =>
    cases i with
    | zero => exact ⟨x, xs, rfl⟩
    | succ j =>
      obtain ⟨y, ys, hy⟩ := ih (by simpa using h)
      exact ⟨y, x :: ys, by simp [extractAt, hy]⟩

theorem shuffleGo_perm (fuel : Nat) (l : List α) (rng : Nat → Nat) (step : Nat)
    (hfuel : l.length ≤ fuel) : (shuffleGo fuel l rng step).Perm l := by
  induction fuel generalizing l step with
  | zero =>
    have : l = [] := List.eq_nil_of_length_eq_zero (Nat.le_zero.mp hfuel)
    subst this; simp [shuffleGo]
  | succ n ih =>
    cases l with
    | nil => simp [shuffleGo, extractAt]
    | cons x xs =>
      have hlen : rng step % (x :: xs).length < (x :: xs).length :=
        Nat.mod_lt _ (by simp)
      obtain ⟨y, ys, hy⟩ := extractAt_isSome hlen
      obtain ⟨hperm, hl⟩ := extractAt_spec hy
      have hys : ys.length ≤ n := by
        have h2 : ys.length + 1 = xs.length + 1 := by simpa using hl
        have h3 : xs.length + 1 ≤ n + 1 := by simpa using hfuel
        omega
      have hrec := ih ys (step + 1) hys
      have hstep : shuffleGo (n + 1) (x :: xs) rng step = y :: shuffleGo n ys rng (step + 1) := by
        rw [shuffleGo, hy]
      rw [hstep]
      exact (hrec.cons y).trans hperm.symm

theorem shuffle_perm (l : List α) (rng : Nat → Nat) : (shuffle l rng).Perm l :=
  shuffleGo_perm _ _ _ _ (Nat.le_refl _)

theorem generate_draw_order_length (a b : Nat) (m : Nat → Nat → Nat × Nat) :
    (generate_draw_order (a, b) m).length = a * b := by
  simp [generate_draw_order, List.length_flatMap]
  induction a with
  | zero => simp
  | succ n ih => simp [List.range_succ, ih, Nat.succ_mul]

theorem generate_draw_order_mem (a b : Nat) (m : Nat → Nat → Nat × Nat) (p : Nat × Nat) :
    p ∈ generate_draw_order (a, b) m ↔ ∃ x < a, ∃ y < b, m x y = p := by
  simp [generate_draw_order, List.mem_flatMap, List.mem_map, List.mem_range]

theorem generate_draw_order_id_nodup (a b : Nat) :
    (generate_draw_order (a, b) (fun x y => (x, y))).Nodup := by
  rw [generate_draw_order, List.nodup_flatMap]
  constructor
  · intro x _
    exact (List.nodup_range b).map (fun y z h => by simpa using h)
  · refine List.Pairwise.imp ?_ (List.pairwise_lt_range a)
    intro x y hxy
    intro p hp hq
    simp [List.mem_map] at hp hq
    obtain ⟨u, _, hu⟩ := hp
    obtain ⟨v, _, hv⟩ := hq
    have hxy2 : (x, u) = (y, v) := hu.trans hv.symm
    exact absurd (congrArg Prod.fst hxy2) (Nat.ne_of_lt hxy)

theorem generate_draw_order_swap_nodup (a b : Nat) :
    (generate_draw_order (a, b) (fun x y => (y, x))).Nodup := by
  rw [generate_draw_order, List.nodup_flatMap]
  constructor
  · intro x _
    exact (List.nodup_range b).map (fun y z h => by simpa using h)
  · refine List.Pairwise.imp ?_ (List.pairwise_lt_range a)
    intro x y hxy
    intro p hp hq
    simp [List.mem_map] at hp hq
    obtain ⟨u, _, hu⟩ := hp
    obtain ⟨v, _, hv⟩ := hq
    have hxy2 : (u, x) = (v, y) := hu.trans hv.symm
    exact absurd (congrArg Prod.snd hxy2) (Nat.ne_of_lt hxy)

theorem generate_draw_order_id_mem (a b : Nat) (p : Nat × Nat)
    (h : p ∈ generate_draw_order (a, b) (fun x y => (x, y))) : p.1 < a ∧ p.2 < b := by
  rw [generate_draw_order_mem] at h
  obtain ⟨x, hx, y, hy, hp⟩ := h
  subst hp
  exact ⟨hx, hy⟩

theorem generate_draw_order_swap_mem (a b : Nat) (p : Nat × Nat)
    (h : p ∈ generate_draw_order (a, b) (fun x y => (y, x))) : p.1 < b ∧ p.2 < a := by
  rw [generate_draw_order_mem] at h
  obtain ⟨x, hx, y, hy, hp⟩ := h
  subst hp
  exact ⟨hy, hx⟩

/-- C9: for every size `(W, H)` and every policy, the draw-order generator yields
exactly `W*H` coordinates, each inside `[0,W) × [0,H)`, without duplicates; the
row policy enumerates y outer / x inner, the column policy x outer / y inner,
and each reversed variant is the exact reversal of its unreversed sequence. -/
theorem draw_order_spec (W H : Nat) (rng : Nat → Nat) (s : DrawStrategy) :
    (s.draw_order (W, H) rng).length = W * H
    ∧ (∀ p ∈ s.draw_order (W, H) rng, p.1 < W ∧ p.2 < H)
    ∧ (s.draw_order (W, H) rng).Nodup
    ∧ (DrawStrategy.Rows false).draw_order (W, H) rng
        = (List.range H).flatMap (fun y => (List.range W).map (fun x => (x, y)))
    ∧ (DrawStrategy.Columns false).draw_order (W, H) rng
        = (List.range W).flatMap (fun x => (List.range H).map (fun y => (x, y)))
    ∧ (DrawStrategy.Rows true).draw_order (W, H) rng
        = ((DrawStrategy.Rows false).draw_order (W, H) rng).reverse
    ∧ (DrawStrategy.Columns true).draw_order (W, H) rng
        = ((DrawStrategy.Columns false).draw_order (W, H) rng).reverse := by
  refine ⟨?_, ?_, ?_, rfl, rfl, rfl, rfl⟩
  · cases s with
    | Random =>
      have h := (shuffle_perm (generate_draw_order (W, H) (fun x y => (x, y))) rng).length_eq
      rw [DrawStrategy.draw_order, h, generate_draw_order_length]
    | Rows reversed =>
      cases reversed with
      | false =>
        show (generate_draw_order (H, W) _).length = W * H
        rw [generate_draw_order_length, Nat.mul_comm]
      | true =>
        show (generate_draw_order (H, W) _).reverse.length = W * H
        rw [List.length_reverse, generate_draw_order_length, Nat.mul_comm]
    | Columns reversed =>
      cases reversed with
      | false =>
        show (generate_draw_order (W, H) _).length = W * H
        rw [generate_draw_order_length]
      | true =>
        show (generate_draw_order (W, H) _).reverse.length = W * H
        rw [List.length_reverse, generate_draw_order_length]
  · intro p hp
    cases s with
    | Random =>
      have h := (shuffle_perm (generate_draw_order (W, H) (fun x y => (x, y))) rng).mem_iff.mp hp
      exact generate_draw_order_id_mem W H p h
    | Rows reversed =>
      cases reversed with
      | false => exact generate_draw_order_swap_mem H W p hp
      | true => exact generate_draw_order_swap_mem H W p (List.mem_reverse.mp hp)
    | Columns reversed =>
      cases reversed with
      | false => exact generate_draw_order_id_mem W H p hp
      | true => exact generate_draw_order_id_mem W H p (List.mem_reverse.mp hp)
  · cases s with
    | Random =>
      exact ((shuffle_perm (generate_draw_order (W, H) (fun x y => (x, y))) rng).nodup_iff).mpr
        (generate_draw_order_id_nodup W H)
    | Rows reversed =>
      cases reversed with
      | false => exact generate_draw_order_swap_nodup H W
      | true => exact List.nodup_reverse.mpr (generate_draw_order_swap_nodup H W)
    | Columns reversed =>
      cases reversed with
      | false => exact generate_draw_order_id_nodup W H
      | true => exact List.nodup_reverse.mpr (generate_draw_order_id_nodup W H)

/-- Witness for `draw_order_spec` at `W = 2`, `H = 3`, row policy. -/
theorem draw_order_spec_witness :
    (1, 2) ∈ (DrawStrategy.Rows false).draw_order (2, 3) (fun _ => 0)
    ∧ ((1, 2) : Nat × Nat).1 < 2 ∧ ((1, 2) : Nat × Nat).2 < 3 := by
  refine ⟨by decide, ?_⟩
  exact (draw_order_spec 2 3 (fun _ => 0) (DrawStrategy.Rows false)).2.1 (1, 2) (by decide)

/-! ### CPU frame processor (src/epizentrum/src/frame_processing/rayon_processor.rs) -/

/-- Mirrors `enum Frame` (src/epizentrum/src/frame_source/mod.rs): raw 4-byte
pixels `(c0, c1, c2, c3)` in row-major order, tagged with the channel order. -/
inductive Frame where
  | Rgba (buffer : List (Nat × Nat × Nat × Nat))
  | Bgra (buffer : List (Nat × Nat × Nat × Nat))

/-- Accumulator-passing digit loop for `decDigits`; fuel bounds the recursion. -/
def decDigitsGo : Nat → Nat → List Nat → List Nat
  | 0, _, acc => acc
  | fuel + 1, n, acc =>
    if n / 10 = 0 then (48 + n % 10) :: acc
    else decDigitsGo fuel (n / 10) ((48 + n % 10) :: acc)

/-- ASCII bytes of the decimal representation of `n` (the `{x}` formatting). -/
def decDigits (n : Nat) : List Nat :=
  decDigitsGo (n + 1) n []

/-- ASCII byte of one lowercase hexadecimal digit. -/
def hexDigit (n : Nat) : Nat :=
  if n < 10 then 48 + n else 87 + n

/-- The `{r:02x}` formatting of one byte value. -/
def hex2 (n : Nat) : List Nat :=
  [hexDigit (n / 16), hexDigit (n % 16)]

/-- Hex field of the RGBA branch: the three-armed `match` on `[r, g, b, a]`
(2 digits for opaque greyscale, 6 for opaque colour, 8 otherwise). -/
def pxHexRgba (p : Nat × Nat × Nat × Nat) : List Nat :=
  match p with
  | (r, g, b, a) =>
    if a = 255 then
      if r = g ∧ g = b then hex2 r else hex2 r ++ hex2 g ++ hex2 b
    else hex2 r ++ hex2 g ++ hex2 b ++ hex2 a

/-- One RGBA-branch command: `format!("PX {xx} {yy} {hex}\n")` as bytes
(`P` = 80, `X` = 88, space = 32, newline = 10). -/
def pxLineRgba (xx yy : Nat) (p : Nat × Nat × Nat × Nat) : List Nat :=
  [80, 88, 32] ++ decDigits xx ++ [32] ++ decDigits yy ++ [32] ++ pxHexRgba p ++ [10]

/-- One BGRA-branch chunk: the source formats `"PX {x} {y} {hex}"` with the raw
bytes read as `[b, g, r, a]`, without offset and without a trailing newline. -/
def pxChunkBgra (x y : Nat) (p : Nat × Nat × Nat × Nat) : List Nat :=
  match p with
  | (b, g, r, a) =>
    [80, 88, 32] ++ decDigits x ++ [32] ++ decDigits y ++ [32] ++
      (if a = 255 then
        if r = g ∧ g = b then hex2 r else hex2 r ++ hex2 g ++ hex2 b
      else hex2 r ++ hex2 g ++ hex2 b ++ hex2 a)

/-- Mirrors `struct RayonProcessor`. -/
structure RayonProcessor where
  size : Nat × Nat
  draw_order : List (Nat × Nat)
  offset : Nat × Nat
  canvas_size : Nat × Nat

/-- Mirrors `RayonProcessor::new`. -/
def RayonProcessor.new (size offset canvas_size : Nat × Nat) (strategy : DrawStrategy)
    (rng : Nat → Nat) : RayonProcessor :=
  { size, draw_order := strategy.draw_order size rng, offset, canvas_size }

/-- Mirrors `RayonProcessor::process`: per draw-order entry, drop the pixel when
`x >= canvas_size.0 || y >= canvas_size.1` (frame coordinates), otherwise format
its command; the parallel collect preserves draw order, modelled sequentially.
Out-of-range buffer indexing (a panic in the source) is modelled by `getD`. -/
def RayonProcessor.process (self : RayonProcessor) (frame : Frame) : List Nat :=
  match frame with
  | .Rgba buffer =>
    (self.draw_order.filterMap (fun xy =>
      if self.canvas_size.1 ≤ xy.1 ∨ self.canvas_size.2 ≤ xy.2 then none
      else some (pxLineRgba (xy.1 + self.offset.1) (xy.2 + self.offset.2)
        (buffer.getD (xy.2 * self.size.1 + xy.1) (0, 0, 0, 0))))).flatten
  | .Bgra buffer =>
    (self.draw_order.filterMap (fun xy =>
      if self.canvas_size.1 ≤ xy.1 ∨ self.canvas_size.2 ≤ xy.2 then none
      else some (pxChunkBgra xy.1 xy.2
        (buffer.getD (xy.2 * self.size.1 + xy.1) (0, 0, 0, 0))))).flatten

theorem filterMap_guard {P : α → Prop} [DecidablePred P] (f : α → β) (l : List α) :
    l.filterMap (fun a => if P a then none else some (f a))
      = (l.filter (fun a => decide ¬ P a)).map f := by
  induction l with
  | nil => rfl
  | cons x xs ih =>
    by_cases h : P x <;> simp [List.filterMap_cons, List.filter_cons, h, ih]

/-- C1 (counterexample): on a 4×4 all-grey frame at offset `(2,2)` on a 3×3
canvas with strategy `down`, the output is not the single claimed line
`"PX 2 2 80\n"` — the bounds check never adds the offset. -/
theorem clipping_counterexample :
    (RayonProcessor.new (4, 4) (2, 2) (3, 3) (DrawStrategy.Rows false) (fun _ => 0)).process
        (Frame.Rgba (List.replicate 16 (128, 128, 128, 255)))
      ≠ [80, 88, 32, 50, 32, 50, 32, 56, 48, 10] := by
  decide

/-- C1 (amended): a pixel of the RGBA branch is omitted exactly when its frame
coordinate satisfies `x ≥ canvas_W` or `y ≥ canvas_H` (the offset is not
consulted); the 4×4 scenario therefore produces nine lines, for canvas
coordinates `(2,2)` to `(4,4)`. -/
theorem clipping_amended :
    (∀ (proc : RayonProcessor) (buffer : List (Nat × Nat × Nat × Nat)),
      proc.process (Frame.Rgba buffer)
        = ((proc.draw_order.filter
              (fun p => decide (p.1 < proc.canvas_size.1 ∧ p.2 < proc.canvas_size.2))).map
            (fun p => pxLineRgba (p.1 + proc.offset.1) (p.2 + proc.offset.2)
              (buffer.getD (p.2 * proc.size.1 + p.1) (0, 0, 0, 0)))).flatten)
    ∧ (RayonProcessor.new (4, 4) (2, 2) (3, 3) (DrawStrategy.Rows false) (fun _ => 0)).process
        (Frame.Rgba (List.replicate 16 (128, 128, 128, 255)))
      = [80, 88, 32, 50, 32, 50, 32, 56, 48, 10,
         80, 88, 32, 51, 32, 50, 32, 56, 48, 10,
         80, 88, 32, 52, 32, 50, 32, 56, 48, 10,
         80, 88, 32, 50, 32, 51, 32, 56, 48, 10,
         80, 88, 32, 51, 32, 51, 32, 56, 48, 10,
         80, 88, 32, 52, 32, 51, 32, 56, 48, 10,
         80, 88, 32, 50, 32, 52, 32, 56, 48, 10,
         80, 88, 32, 51, 32, 52, 32, 56, 48, 10,
         80, 88, 32, 52, 32, 52, 32, 56, 48, 10] := by
  constructor
  · intro proc buffer
    rw [RayonProcessor.process,
      filterMap_guard (P := fun p : Nat × Nat =>
        proc.canvas_size.1 ≤ p.1 ∨ proc.canvas_size.2 ≤ p.2)]
    have hf : proc.draw_order.filter
          (fun a => decide ¬(proc.canvas_size.1 ≤ a.1 ∨ proc.canvas_size.2 ≤ a.2))
        = proc.draw_order.filter
          (fun p => decide (p.1 < proc.canvas_size.1 ∧ p.2 < proc.canvas_size.2)) := by
      apply List.filter_congr
      intro p _
      exact decide_eq_decide.mpr (by omega)
    rw [hf]
  · decide

/-- C6: the RGBA branch emits the shortest legal hex field — 2 digits for an
opaque greyscale pixel, 6 for an opaque colour pixel, 8 otherwise — and the 2×2
all-`(0x80,0x80,0x80,0xFF)` frame at offset `(0,0)` on a 2×2 canvas with
strategy `down` yields byte-exactly `"PX 0 0 80\nPX 1 0 80\nPX 0 1 80\nPX 1 1 80\n"`. -/
theorem hex_shorthand_spec :
    (∀ r g b a : Nat,
      ((a = 255 ∧ r = g ∧ g = b) → (pxHexRgba (r, g, b, a)).length = 2)
      ∧ ((a = 255 ∧ ¬(r = g ∧ g = b)) → (pxHexRgba (r, g, b, a)).length = 6)
      ∧ (a ≠ 255 → (pxHexRgba (r, g, b, a)).length = 8))
    ∧ (RayonProcessor.new (2, 2) (0, 0) (2, 2) (DrawStrategy.Rows false) (fun _ => 0)).process
        (Frame.Rgba (List.replicate 4 (128, 128, 128, 255)))
      = [80, 88, 32, 48, 32, 48, 32, 56, 48, 10,
         80, 88, 32, 49, 32, 48, 32, 56, 48, 10,
         80, 88, 32, 48, 32, 49, 32, 56, 48, 10,
         80, 88, 32, 49, 32, 49, 32, 56, 48, 10] := by
  constructor
  · intro r g b a
    refine ⟨?_, ?_, ?_⟩
    · intro h
      simp [pxHexRgba, h.1, h.2.1, h.2.2, hex2]
    · intro h
      simp [pxHexRgba, h.1, h.2, hex2]
    · intro h
      simp [pxHexRgba, h, hex2]
  · decide

/-- Witness for `hex_shorthand_spec`: the alpha-bearing pixel `(0x12,0x34,0x56,0x78)`
takes the 8-digit form. -/
theorem hex_shorthand_spec_witness :
    (120 : Nat) ≠ 255 ∧ (pxHexRgba (18, 52, 86, 120)).length = 8 :=
  ⟨by decide, (hex_shorthand_spec.1 18 52 86 120).2.2 (by decide)⟩

/-- C7 (code divergence): the BGRA branch formats `"PX {x} {y} {hex}"` without
applying the offset and without a terminating newline: a single grey pixel at
offset `(1,1)` yields the bytes of `"PX 0 0 80"`, not `"PX 1 1 80\n"`. -/
theorem bgra_branch_eval :
    (RayonProcessor.mk (1, 1) [(0, 0)] (1, 1) (2, 2)).process
        (Frame.Bgra [(128, 128, 128, 255)])
      = [80, 88, 32, 48, 32, 48, 32, 56, 48]
    ∧ (RayonProcessor.mk (1, 1) [(0, 0)] (1, 1) (2, 2)).process
        (Frame.Bgra [(128, 128, 128, 255)])
      ≠ [80, 88, 32, 49, 32, 49, 32, 56, 48, 10] := by
  constructor <;> decide

/-! ### Frame source (src/epizentrum/src/frame_source/media_source.rs) -/

/-- Mirrors `struct Timing` (src/epizentrum/src/frame_source/mod.rs): a frame,
its full display duration and how long it remains valid relative to the query.
Durations are nanosecond counts. -/
structure Timing (F : Type) where
  frame : F
  frame_time : Nat
  time_left : Nat
deriving DecidableEq

/-- The accumulate-and-compare loop in `MediaSource::frame`; the source's
`unreachable!()` fall-through is `none`. -/
def msWalk : List (F × Nat) → Nat → Nat → Option (Timing F)
  | [], _, _ => none
  | (f, ft) :: rest, accu, delta =>
    if delta ≤ accu + ft then some ⟨f, ft, accu + ft - delta⟩
    else msWalk rest (accu + ft) delta

/-- Mirrors `struct MediaSource` (the pixel grids are irrelevant here, so frames
are abstract values of type `F`); `MediaSource::new` sets
`time = frames.iter().map(|(_, d)| d).sum()`. -/
structure MediaSource (F : Type) where
  frames : List (F × Nat)
  time : Nat

/-- Mirrors `MediaSource::frame`: the query is reduced by
`Duration::from_nanos((delta.as_nanos() % self.time.as_nanos()) as u64)` —
a 128-bit modulus truncated to 64 bits — before the walk. -/
def MediaSource.frame (self : MediaSource F) (delta : Nat) : Option (Timing F) :=
  msWalk self.frames 0 (delta % self.time % 2 ^ 64)

/-- Running sum of the first `k` display durations. -/
def durSum (frames : List (F × Nat)) (k : Nat) : Nat :=
  ((frames.take k).map Prod.snd).sum

theorem msWalk_char (frames : List (F × Nat)) (accu d : Nat) (hne : frames ≠ [])
    (hle : d ≤ accu + (frames.map Prod.snd).sum) :
    ∃ i, ∃ h : i < frames.length,
      msWalk frames accu d = some ⟨(frames.get ⟨i, h⟩).1, (frames.get ⟨i, h⟩).2,
        accu + durSum frames (i + 1) - d⟩
      ∧ d ≤ accu + durSum frames (i + 1)
      ∧ ∀ j < i, accu + durSum frames (j + 1) < d := by
  induction frames generalizing accu with
  | nil => exact absurd rfl hne
  | cons p rest ih =>
    obtain ⟨f, ft⟩ := p
    by_cases hcase : d ≤ accu + ft
    · refine ⟨0, by simp, ?_, ?_, ?_⟩
      · simp [msWalk, hcase, durSum]
      · simpa [durSum] using hcase
      · intro j hj
        exact absurd hj (Nat.not_lt_zero j)
    · have hrest : rest ≠ [] := by
        intro hr
        subst hr
        simp at hle
        omega
      have hle2 : d ≤ (accu + ft) + (rest.map Prod.snd).sum := by
        simp at hle
        omega
      obtain ⟨i, hi, heq, hup, hlow⟩ := ih (accu + ft) hrest hle2
      refine ⟨i + 1, by simpa using Nat.succ_lt_succ hi, ?_, ?_, ?_⟩
      · have : msWalk ((f, ft) :: rest) accu d = msWalk rest (accu + ft) d := by
          simp [msWalk, hcase]
        rw [this, heq]
        congr 1
        simp [durSum, List.take_succ_cons]
        omega
      · have : durSum ((f, ft) :: rest) (i + 2) = ft + durSum rest (i + 1) := by
          simp [durSum, List.take_succ_cons]
        rw [this]
        omega
      · intro j hj
        cases j with
        | zero =>
          have : durSum ((f, ft) :: rest) 1 = ft := by simp [durSum]
          rw [this]
          omega
        | succ j2 =>
          have : durSum ((f, ft) :: rest) (j2 + 2) = ft + durSum rest (j2 + 1) := by
            simp [durSum, List.take_succ_cons]
          rw [this]
          have := hlow j2 (by omega)
          omega

/-- C5 (counterexample): with a cycle time of `2^64 + 1` nanoseconds the cast to
`u64` truncates the reduced query: at `t = 2^64` the claimed walk at
`t' = t mod T_cycle` yields `time_left = 0`, but the source returns `2^64`. -/
theorem frame_cast_counterexample :
    (MediaSource.mk [((0 : Nat), 2 ^ 64), (1, 1)] (2 ^ 64 + 1)).frame (2 ^ 64)
      = some ⟨0, 2 ^ 64, 2 ^ 64⟩
    ∧ ((2 ^ 64 + 1 : Nat) = ([((0 : Nat), 2 ^ 64), (1, 1)].map Prod.snd).sum)
    ∧ msWalk [((0 : Nat), 2 ^ 64), (1, 1)] 0 (2 ^ 64 % (2 ^ 64 + 1))
      = some ⟨0, 2 ^ 64, 0⟩
    ∧ (some (Timing.mk (0 : Nat) (2 ^ 64) (2 ^ 64))
        ≠ some (Timing.mk (0 : Nat) (2 ^ 64) 0)) := by
  refine ⟨by decide, by decide, by decide, by decide⟩

/-- C5 (amended): `MediaSource::frame` reduces `t' = (t mod T_cycle) mod 2^64`
(equal to `t mod T_cycle` whenever that value fits 64 bits) and walks the
`(frame, duration)` pairs until the running sum reaches `t'`, returning that
frame, its display duration and `time_left = running_sum - t'`; `frame` is
periodic in `T_cycle`, and the 100ms/200ms example behaves as claimed. -/
theorem frame_walk_spec (F : Type) (self : MediaSource F) (delta : Nat)
    (htime : self.time = (self.frames.map Prod.snd).sum) (hpos : 0 < self.time) :
    (∃ i, ∃ h : i < self.frames.length,
      self.frame delta = some ⟨(self.frames.get ⟨i, h⟩).1, (self.frames.get ⟨i, h⟩).2,
        durSum self.frames (i + 1) - delta % self.time % 2 ^ 64⟩
      ∧ delta % self.time % 2 ^ 64 ≤ durSum self.frames (i + 1)
      ∧ ∀ j < i, durSum self.frames (j + 1) < delta % self.time % 2 ^ 64)
    ∧ (∀ k, self.frame (delta + k * self.time) = self.frame delta)
    ∧ (MediaSource.mk [((0 : Nat), 100000000), (1, 200000000)] 300000000).frame 50000000
      = some ⟨0, 100000000, 50000000⟩
    ∧ (MediaSource.mk [((0 : Nat), 100000000), (1, 200000000)] 300000000).frame 350000000
      = some ⟨0, 100000000, 50000000⟩
    ∧ (MediaSource.mk [((0 : Nat), 100000000), (1, 200000000)] 300000000).frame 250000000
      = some ⟨1, 200000000, 50000000⟩ := by
  refine ⟨?_, ?_, by decide, by decide, by decide⟩
  · have hne : self.frames ≠ [] := by
      intro hnil
      rw [htime, hnil] at hpos
      simp at hpos
    have hlt : delta % self.time < self.time := Nat.mod_lt _ hpos
    have hle : delta % self.time % 2 ^ 64 ≤ (self.frames.map Prod.snd).sum := by
      have h1 : delta % self.time % 2 ^ 64 ≤ delta % self.time := Nat.mod_le _ _
      omega
    obtain ⟨i, hi, heq, hup, hlow⟩ :=
      msWalk_char self.frames 0 (delta % self.time % 2 ^ 64) hne (by omega)
    refine ⟨i, hi, ?_, by simpa using hup, ?_⟩
    · rw [MediaSource.frame, heq]
      congr 1
      simp
    · intro j hj
      simpa using hlow j hj
  · intro k
    rw [MediaSource.frame, MediaSource.frame, Nat.add_mul_mod_self_right]

/-- Witness for `frame_walk_spec` at the two-frame 100ms/200ms animation and
`t = 50 ms`: instantiates the hypotheses and reads off the periodicity part. -/
theorem frame_walk_spec_witness :
    ((MediaSource.mk [((0 : Nat), 100000000), (1, 200000000)] 300000000).time
      = (([((0 : Nat), 100000000), (1, 200000000)]).map Prod.snd).sum)
    ∧ (0 < (MediaSource.mk [((0 : Nat), 100000000), (1, 200000000)] 300000000).time)
    ∧ (MediaSource.mk [((0 : Nat), 100000000), (1, 200000000)] 300000000).frame
        (50000000 + 1 * 300000000)
      = (MediaSource.mk [((0 : Nat), 100000000), (1, 200000000)] 300000000).frame 50000000 := by
  refine ⟨by decide, by decide, ?_⟩
  exact (frame_walk_spec Nat (MediaSource.mk [((0 : Nat), 100000000), (1, 200000000)] 300000000)
    50000000 (by decide) (by decide)).2.1 1

/-! ### Cache layers (src/epizentrum/src/lib.rs)

An inner `CommandBufferSource` is modelled as a function
`Nat → Except E (B × Nat × Nat)` sending the (reduced) query time to
`(frame bytes, frame_time, time_left)`; durations are nanosecond counts. -/

/-- One `((start, end), buffer)` entry of `ComputeOnceCache::cache`
(`end` is a reserved word in Lean, hence `stop`). -/
structure CEntry (B : Type) where
  start : Nat
  stop : Nat
  buf : B
deriving DecidableEq

instance [Inhabited B] : Inhabited (CEntry B) :=
  ⟨⟨0, 0, default⟩⟩

/-- The closure handed to `binary_search_by`: `Less` when `delta < start`,
`Greater` when `delta >= end` — note this orders `delta` against the probed
element, while the `binary_search_by` contract expects the element ordered
against the target. -/
def cocCmp (delta : Nat) (e : CEntry B) : Ordering :=
  if delta < e.start then .lt
  else if e.stop ≤ delta then .gt
  else .eq

/-- Mirrors the loop of `slice::binary_search_by` of the Rust standard library:
probe `left + (right - left) / 2`, move `left` past the probe on `Less`, move
`right` to the probe on `Greater`.  `Except.ok` is `Ok`, `Except.error` is
`Err`.  The loop runs while `left < right` and each pass shrinks
`right - left`, so a fuel of the initial width bounds it; the fuel-exhausted
and out-of-bounds (`get_unchecked`) arms are unreachable under
`right - left <= fuel` and `right <= v.length`. -/
def bsearchGo (v : List (CEntry B)) (delta : Nat) : Nat → Nat → Nat → Except Nat Nat
  | 0, left, _ => .error left
  | fuel + 1, left, right =>
    if left < right then
      match v.get? (left + (right - left) / 2) with
      | none => .error left
      | some e =>
        match cocCmp delta e with
        | .lt => bsearchGo v delta fuel (left + (right - left) / 2 + 1) right
        | .gt => bsearchGo v delta fuel left (left + (right - left) / 2)
        | .eq => .ok (left + (right - left) / 2)
    else .error left

/-- `self.cache.binary_search_by(...)` over the whole vector. -/
def bsearch (v : List (CEntry B)) (delta : Nat) : Except Nat Nat :=
  bsearchGo v delta v.length 0 v.length

/-- Mirrors `Vec::insert(i, x)` (shift-right insertion at index `i`). -/
def listInsertAt (l : List α) (i : Nat) (x : α) : List α :=
  l.take i ++ x :: l.drop i

/-- Mirrors `ComputeOnceCache::command_buffer`: reduce the query by
`(delta.as_nanos() % self.cycle_time().as_nanos()) as u64`, binary-search the
interval list; on `Ok(i)` return the stored buffer with
`frame_time = end - start` and `time_left = end - delta`; on `Err(i)` query the
inner source and insert `((end - frame_time, end), buffer)` at `i` with
`end = delta + time_left`.  Returns the `Result` together with the new cache
list. -/
def cocCommandBuffer [Inhabited B] (src : Nat → Except E (B × Nat × Nat)) (cycle : Nat)
    (cache : List (CEntry B)) (delta0 : Nat) : Except E (Timing B) × List (CEntry B) :=
  let delta := delta0 % cycle % 2 ^ 64
  match bsearch cache delta with
  | .ok i =>
    let e := cache.getD i default
    (.ok ⟨e.buf, e.stop - e.start, e.stop - delta⟩, cache)
  | .error i =>
    match src delta with
    | .error err => (.error err, cache)
    | .ok (frame, frame_time, time_left) =>
      (.ok ⟨frame, frame_time, time_left⟩,
        listInsertAt cache i ⟨delta + time_left - frame_time, delta + time_left, frame⟩)

/-- Folds a sequence of queries through the compute-once cache, keeping only the
cache state. -/
def cocRun [Inhabited B] (src : Nat → Except E (B × Nat × Nat)) (cycle : Nat)
    (cache : List (CEntry B)) : List Nat → List (CEntry B)
  | [] => cache
  | d :: ds => cocRun src cycle (cocCommandBuffer src cycle cache d).2 ds

/-- Mirrors `SingleFrameCache::command_buffer`.  The wall-clock reads are passed
in explicitly: `now` is the first `Instant::now()` and `now2` the one taken when
storing a recomputed entry.  The stored triple is
`(valid_until, frame_time, buffer)`. -/
def sfcCommandBuffer (src : Nat → Except E (B × Nat × Nat)) (cycle : Nat)
    (cache : Option (Nat × Nat × B)) (delta0 now now2 : Nat) :
    Except E (Timing B) × Option (Nat × Nat × B) :=
  let delta := delta0 % cycle % 2 ^ 64
  match cache with
  | some (valid_until, frame_time, frame) =>
    if now ≤ valid_until then
      (.ok ⟨frame, frame_time, valid_until - now⟩, cache)
    else
      match src delta with
      | .error e => (.error e, cache)
      | .ok (f2, ft2, tl2) => (.ok ⟨f2, ft2, tl2⟩, some (now2 + tl2, ft2, f2))
  | none =>
    match src delta with
    | .error e => (.error e, cache)
    | .ok (f2, ft2, tl2) => (.ok ⟨f2, ft2, tl2⟩, some (now2 + tl2, ft2, f2))

/-- C10: when the inner source fails, both cache layers leave their stored state
untouched and hand the error through unchanged (compute-once consults the source
only on a search miss; keep-last only when the stored entry is absent or
expired). -/
theorem cache_error_transparent :
    (∀ (B E : Type) (_ : Inhabited B) (src : Nat → Except E (B × Nat × Nat))
        (cycle : Nat) (cache : List (CEntry B)) (delta0 i : Nat) (err : E),
      bsearch cache (delta0 % cycle % 2 ^ 64) = .error i →
      src (delta0 % cycle % 2 ^ 64) = .error err →
      cocCommandBuffer src cycle cache delta0 = (.error err, cache))
    ∧ (∀ (B E : Type) (src : Nat → Except E (B × Nat × Nat))
        (cycle : Nat) (delta0 now now2 : Nat) (err : E),
      src (delta0 % cycle % 2 ^ 64) = .error err →
      sfcCommandBuffer src cycle none delta0 now now2 = (.error err, none))
    ∧ (∀ (B E : Type) (src : Nat → Except E (B × Nat × Nat))
        (cycle : Nat) (vu ft : Nat) (f : B) (delta0 now now2 : Nat) (err : E),
      ¬ now ≤ vu →
      src (delta0 % cycle % 2 ^ 64) = .error err →
      sfcCommandBuffer src cycle (some (vu, ft, f)) delta0 now now2
        = (.error err, some (vu, ft, f))) := by
  refine ⟨?_, ?_, ?_⟩
  · intro B E _ src cycle cache delta0 i err hb hs
    rw [cocCommandBuffer]
    simp only [hb, hs]
  · intro B E src cycle delta0 now now2 err hs
    rw [sfcCommandBuffer]
    simp only [hs]
  · intro B E src cycle vu ft f delta0 now now2 err hnow hs
    rw [sfcCommandBuffer]
    simp only [hnow, if_false, hs]

/-- Witness for `cache_error_transparent`: a source that always fails leaves an
empty compute-once cache and an expired keep-last entry unchanged. -/
theorem cache_error_transparent_witness :
    (bsearch ([] : List (CEntry Nat)) (0 % 5 % 2 ^ 64) = .error 0)
    ∧ ((fun _ => Except.error 7 : Nat → Except Nat (Nat × Nat × Nat)) (0 % 5 % 2 ^ 64)
        = .error 7)
    ∧ cocCommandBuffer (fun _ => Except.error 7 : Nat → Except Nat (Nat × Nat × Nat)) 5 [] 0
        = (.error 7, [])
    ∧ ¬ (3 : Nat) ≤ 2
    ∧ sfcCommandBuffer (fun _ => Except.error 7 : Nat → Except Nat (Nat × Nat × Nat)) 5
        (some (2, 9, 4)) 0 3 3
      = (.error 7, some (2, 9, 4)) := by
  refine ⟨rfl, rfl, ?_, by decide, ?_⟩
  · exact cache_error_transparent.1 Nat Nat ⟨0⟩ _ 5 [] 0 0 7 rfl rfl
  · exact cache_error_transparent.2.2 Nat Nat _ 5 2 9 4 0 3 3 7 (by decide) rfl

theorem cocCmp_lt_iff (delta : Nat) (e : CEntry B) :
    cocCmp delta e = .lt ↔ delta < e.start := by
  rw [cocCmp]
  split_ifs with h1 h2 <;> simp_all

theorem cocCmp_gt_iff (delta : Nat) (e : CEntry B) :
    cocCmp delta e = .gt ↔ e.start ≤ delta ∧ e.stop ≤ delta := by
  rw [cocCmp]
  split_ifs with h1 h2 <;> simp_all <;> omega

theorem cocCmp_eq_iff (delta : Nat) (e : CEntry B) :
    cocCmp delta e = .eq ↔ e.start ≤ delta ∧ delta < e.stop := by
  rw [cocCmp]
  split_ifs with h1 h2 <;> simp_all <;> omega

/-- A fixed partition of the timeline into half-open cells: every instant lies in
its own cell, and any instant inside a cell has that same cell. -/
def IsCells (cells : Nat → Nat × Nat) : Prop :=
  (∀ d, (cells d).1 ≤ d ∧ d < (cells d).2)
  ∧ (∀ d d2, (cells d).1 ≤ d2 → d2 < (cells d).2 → cells d2 = cells d)

/-- The inner source answers according to the partition: a successful answer at
`d` has `d + time_left = cell end` and `frame_time = cell length`. -/
def SrcFollows (src : Nat → Except E (B × Nat × Nat)) (cells : Nat → Nat × Nat) : Prop :=
  ∀ d f ft tl, src d = .ok (f, ft, tl) →
    d + tl = (cells d).2 ∧ ft = (cells d).2 - (cells d).1

/-- Compute-once cache invariant: every stored interval is a cell of the
partition, and the entries are pairwise disjoint with strictly descending
starts (each later entry ends no later than the earlier one starts). -/
def cocGood (cells : Nat → Nat × Nat) (cache : List (CEntry B)) : Prop :=
  (∀ en ∈ cache, ∃ d, (cells d).1 = en.start ∧ (cells d).2 = en.stop)
  ∧ cache.Pairwise (fun a b => b.stop ≤ a.start)

theorem IsCells.eq_or_disjoint {cells : Nat → Nat × Nat} (hc : IsCells cells)
    (d1 d2 : Nat) :
    cells d1 = cells d2 ∨ (cells d1).2 ≤ (cells d2).1 ∨ (cells d2).2 ≤ (cells d1).1 := by
  by_cases hover : (cells d1).1 < (cells d2).2 ∧ (cells d2).1 < (cells d1).2
  · left
    set x := max (cells d1).1 (cells d2).1 with hx
    have ha := hc.1 d1
    have hb := hc.1 d2
    have h1 : cells x = cells d1 := by
      apply hc.2 d1 x (le_max_left _ _)
      omega
    have h2 : cells x = cells d2 := by
      apply hc.2 d2 x (le_max_right _ _)
      omega
    rw [← h1, h2]
  · right
    omega

theorem cocGood_valid {cells : Nat → Nat × Nat} {cache : List (CEntry B)}
    (hc : IsCells cells) (hg : cocGood cells cache) : ∀ e ∈ cache, e.start < e.stop := by
  intro e he
  obtain ⟨d, h1, h2⟩ := hg.1 e he
  have h3 := hc.1 d
  omega

theorem pairwise_get {v : List (CEntry B)} (hpair : v.Pairwise (fun a b => b.stop ≤ a.start))
    {i j : Nat} (hi : i < v.length) (hj : j < v.length) (hij : i < j) :
    (v.get ⟨j, hj⟩).stop ≤ (v.get ⟨i, hi⟩).start := by
  rw [List.pairwise_iff_get] at hpair
  exact hpair ⟨i, hi⟩ ⟨j, hj⟩ hij

theorem bsearchGo_char (v : List (CEntry B)) (delta : Nat)
    (hpair : v.Pairwise (fun a b => b.stop ≤ a.start))
    (hvalid : ∀ e ∈ v, e.start < e.stop) :
    ∀ fuel left right, left ≤ right → right ≤ v.length → right - left ≤ fuel →
    (∀ j (hj : j < v.length), j < left → cocCmp delta (v.get ⟨j, hj⟩) = .lt) →
    (∀ j (hj : j < v.length), right ≤ j → cocCmp delta (v.get ⟨j, hj⟩) = .gt) →
    (∃ i, ∃ hi : i < v.length, bsearchGo v delta fuel left right = .ok i
        ∧ cocCmp delta (v.get ⟨i, hi⟩) = .eq)
    ∨ (∃ i, i ≤ v.length ∧ bsearchGo v delta fuel left right = .error i
        ∧ (∀ j (hj : j < v.length), j < i → cocCmp delta (v.get ⟨j, hj⟩) = .lt)
        ∧ (∀ j (hj : j < v.length), i ≤ j → cocCmp delta (v.get ⟨j, hj⟩) = .gt)) := by
  intro fuel
  induction fuel with
  | zero =>
    intro left right hlr hrlen hfuel hl hg
    have hleft : left = right := by omega
    right
    refine ⟨left, by omega, rfl, hl, ?_⟩
    intro j hj hji
    exact hg j hj (by omega)
  | succ n ih =>
    intro left right hlr hrlen hfuel hl hg
    by_cases hcond : left < right
    · have hmid : left ≤ left + (right - left) / 2 ∧ left + (right - left) / 2 < right := by
        omega
      have hmlen : left + (right - left) / 2 < v.length := by omega
      have hget : v.get? (left + (right - left) / 2)
          = some (v.get ⟨left + (right - left) / 2, hmlen⟩) :=
        List.get?_eq_get hmlen
      have hstep : bsearchGo v delta (n + 1) left right
          = match cocCmp delta (v.get ⟨left + (right - left) / 2, hmlen⟩) with
            | .lt => bsearchGo v delta n (left + (right - left) / 2 + 1) right
            | .gt => bsearchGo v delta n left (left + (right - left) / 2)
            | .eq => .ok (left + (right - left) / 2) := by
        rw [bsearchGo, if_pos hcond, hget]
      cases hcmp : cocCmp delta (v.get ⟨left + (right - left) / 2, hmlen⟩) with
      | lt =>
        rw [hstep, hcmp]
        apply ih (left + (right - left) / 2 + 1) right (by omega) hrlen (by omega)
        · intro j hj hji
          rcases Nat.lt_or_ge j left with hc | hc
          · exact hl j hj hc
          · rcases Nat.lt_or_ge j (left + (right - left) / 2) with hc2 | hc2
            · rw [cocCmp_lt_iff]
              have h1 := pairwise_get hpair hj hmlen hc2
              have h3 := (cocCmp_lt_iff delta _).mp hcmp
              have h4 : (v.get ⟨left + (right - left) / 2, hmlen⟩).start
                  < (v.get ⟨left + (right - left) / 2, hmlen⟩).stop :=
                hvalid _ (List.get_mem v _ hmlen)
              omega
            · have hjeq : j = left + (right - left) / 2 := by omega
              subst hjeq
              exact hcmp
        · exact hg
      | gt =>
        rw [hstep, hcmp]
        apply ih left (left + (right - left) / 2) (by omega) (by omega) (by omega) hl
        intro j hj hji
        rcases Nat.lt_or_ge j (left + (right - left) / 2 + 1) with hc | hc
        · have hjeq : j = left + (right - left) / 2 := by omega
          subst hjeq
          exact hcmp
        · rw [cocCmp_gt_iff]
          have h1 := pairwise_get hpair hmlen hj (by omega)
          have h2 := (cocCmp_gt_iff delta _).mp hcmp
          have h3 : (v.get ⟨j, hj⟩).start < (v.get ⟨j, hj⟩).stop :=
            hvalid _ (List.get_mem v _ hj)
          omega
      | eq =>
        rw [hstep, hcmp]
        exact Or.inl ⟨left + (right - left) / 2, hmlen, rfl, hcmp⟩
    · have hstep : bsearchGo v delta (n + 1) left right = .error left := by
        rw [bsearchGo, if_neg hcond]
      right
      refine ⟨left, by omega, hstep, hl, ?_⟩
      intro j hj hji
      exact hg j hj (by omega)

theorem bsearch_char (v : List (CEntry B)) (delta : Nat)
    (hpair : v.Pairwise (fun a b => b.stop ≤ a.start))
    (hvalid : ∀ e ∈ v, e.start < e.stop) :
    (∃ i, ∃ hi : i < v.length, bsearch v delta = .ok i
        ∧ cocCmp delta (v.get ⟨i, hi⟩) = .eq)
    ∨ (∃ i, i ≤ v.length ∧ bsearch v delta = .error i
        ∧ (∀ j (hj : j < v.length), j < i → cocCmp delta (v.get ⟨j, hj⟩) = .lt)
        ∧ (∀ j (hj : j < v.length), i ≤ j → cocCmp delta (v.get ⟨j, hj⟩) = .gt)) := by
  apply bsearchGo_char v delta hpair hvalid v.length 0 v.length (Nat.zero_le _)
    (Nat.le_refl _) (by omega)
  · intro j hj hji
    exact absurd hji (Nat.not_lt_zero j)
  · intro j hj hji
    exact absurd hj (Nat.not_lt_of_le hji)

theorem mem_listInsertAt {l : List α} {i : Nat} {x b : α} :
    b ∈ listInsertAt l i x ↔ b = x ∨ b ∈ l := by
  rw [listInsertAt]
  constructor
  · intro h
    rcases List.mem_append.mp h with h | h
    · exact Or.inr (List.take_subset i l h)
    · rcases List.mem_cons.mp h with h | h
      · exact Or.inl h
      · exact Or.inr (List.drop_subset i l h)
  · intro h
    rcases h with h | h
    · exact List.mem_append.mpr (Or.inr (List.mem_cons.mpr (Or.inl h)))
    · rw [← List.take_append_drop i l] at h
      rcases List.mem_append.mp h with h | h
      · exact List.mem_append.mpr (Or.inl h)
      · exact List.mem_append.mpr (Or.inr (List.mem_cons.mpr (Or.inr h)))

theorem pairwise_listInsertAt {R : α → α → Prop} :
    ∀ (l : List α) (i : Nat) (x : α), l.Pairwise R →
    (∀ b ∈ l.take i, R b x) → (∀ b ∈ l.drop i, R x b) →
    (listInsertAt l i x).Pairwise R := by
  intro l
  induction l with
  | nil =>
    intro i x _ _ _
    simp [listInsertAt]
  | cons a as ih =>
    intro i x hp h1 h2
    cases i with
    | zero =>
      have hins : listInsertAt (a :: as) 0 x = x :: a :: as := rfl
      rw [hins]
      refine List.Pairwise.cons ?_ hp
      intro b hb
      exact h2 b (by simpa using hb)
    | succ n =>
      have hins : listInsertAt (a :: as) (n + 1) x = a :: listInsertAt as n x := by
        simp [listInsertAt]
      rw [hins]
      obtain ⟨ha, has⟩ := List.pairwise_cons.mp hp
      refine List.Pairwise.cons ?_ (ih n x has ?_ ?_)
      · intro b hb
        rcases mem_listInsertAt.mp hb with rfl | hbl
        · exact h1 a (by simp)
        · exact ha b hbl
      · intro b hb
        apply h1 b
        rw [List.take_succ_cons]
        exact List.mem_cons.mpr (Or.inr hb)
      · intro b hb
        exact h2 b hb

theorem mem_take_index : ∀ {l : List α} {i : Nat} {b : α}, b ∈ l.take i →
    ∃ j, ∃ hj : j < l.length, j < i ∧ l.get ⟨j, hj⟩ = b := by
  intro l
  induction l with
  | nil =>
    intro i b h
    simp at h
  | cons a as ih =>
    intro i b h
    cases i with
    | zero => simp at h
    | succ n =>
      rw [List.take_succ_cons] at h
      rcases List.mem_cons.mp h with rfl | h2
      · exact ⟨0, by simp, by omega, rfl⟩
      · obtain ⟨j, hj, hji, hjb⟩ := ih h2
        exact ⟨j + 1, by simpa using Nat.succ_lt_succ hj, by omega, by simpa using hjb⟩

theorem mem_drop_index : ∀ {l : List α} {i : Nat} {b : α}, b ∈ l.drop i →
    ∃ j, ∃ hj : j < l.length, i ≤ j ∧ l.get ⟨j, hj⟩ = b := by
  intro l
  induction l with
  | nil =>
    intro i b h
    simp at h
  | cons a as ih =>
    intro i b h
    cases i with
    | zero =>
      rw [List.drop_zero] at h
      obtain ⟨⟨k, hk⟩, hkb⟩ := List.mem_iff_get.mp h
      exact ⟨k, hk, Nat.zero_le k, hkb⟩
    | succ n =>
      have h2 : b ∈ as.drop n := h
      obtain ⟨j, hj, hji, hjb⟩ := ih h2
      exact ⟨j + 1, by simpa using Nat.succ_lt_succ hj, by omega, by simpa using hjb⟩

theorem cocGood_insert {cells : Nat → Nat × Nat} {cache : List (CEntry B)}
    (hc : IsCells cells) (hg : cocGood cells cache) (d i : Nat) (f : B)
    (hlt : ∀ j (hj : j < cache.length), j < i → d < (cache.get ⟨j, hj⟩).start)
    (hgt : ∀ j (hj : j < cache.length), i ≤ j → (cache.get ⟨j, hj⟩).stop ≤ d) :
    cocGood cells (listInsertAt cache i ⟨(cells d).1, (cells d).2, f⟩) := by
  constructor
  · intro en hen
    rcases mem_listInsertAt.mp hen with rfl | hmem
    · exact ⟨d, rfl, rfl⟩
    · exact hg.1 en hmem
  · apply pairwise_listInsertAt cache i _ hg.2
    · intro b hb
      obtain ⟨j, hj, hji, hjb⟩ := mem_take_index hb
      have hbl : b ∈ cache := by
        rw [← hjb]
        exact List.get_mem cache j hj
      have hdb := hlt j hj hji
      rw [hjb] at hdb
      obtain ⟨db, hdb1, hdb2⟩ := hg.1 b hbl
      have hbvalid := cocGood_valid hc hg b hbl
      have hown := hc.1 d
      rcases hc.eq_or_disjoint d db with heq | hdisj | hdisj
      · rw [heq] at hown
        omega
      · show (cells d).2 ≤ b.start
        omega
      · omega
    · intro b hb
      obtain ⟨j, hj, hji, hjb⟩ := mem_drop_index hb
      have hbl : b ∈ cache := by
        rw [← hjb]
        exact List.get_mem cache j hj
      have hdb := hgt j hj hji
      rw [hjb] at hdb
      obtain ⟨db, hdb1, hdb2⟩ := hg.1 b hbl
      have hbvalid := cocGood_valid hc hg b hbl
      have hown := hc.1 d
      rcases hc.eq_or_disjoint d db with heq | hdisj | hdisj
      · rw [heq] at hown
        omega
      · omega
      · show b.stop ≤ (cells d).1
        omega

theorem coc_hit [Inhabited B] {cells : Nat → Nat × Nat} (hc : IsCells cells)
    (src : Nat → Except E (B × Nat × Nat)) (cycle : Nat) {cache : List (CEntry B)}
    (hg : cocGood cells cache) (delta0 : Nat) (j : Nat) (hj : j < cache.length)
    (hs : (cache.get ⟨j, hj⟩).start ≤ delta0 % cycle % 2 ^ 64)
    (he : delta0 % cycle % 2 ^ 64 < (cache.get ⟨j, hj⟩).stop) :
    cocCommandBuffer src cycle cache delta0
      = (.ok ⟨(cache.get ⟨j, hj⟩).buf,
          (cache.get ⟨j, hj⟩).stop - (cache.get ⟨j, hj⟩).start,
          (cache.get ⟨j, hj⟩).stop - delta0 % cycle % 2 ^ 64⟩, cache) := by
  have hvalid := cocGood_valid hc hg
  rcases bsearch_char cache (delta0 % cycle % 2 ^ 64) hg.2 hvalid with
    ⟨i, hi, hok, hcmp⟩ | ⟨i, _, _, hlts, hgts⟩
  · have hieq := (cocCmp_eq_iff _ _).mp hcmp
    have hij : i = j := by
      rcases Nat.lt_trichotomy i j with hij | hij | hij
      · have := pairwise_get hg.2 hi hj hij
        omega
      · exact hij
      · have := pairwise_get hg.2 hj hi hij
        omega
    subst hij
    simp only [cocCommandBuffer]
    rw [hok]
    simp [List.getD_eq_getElem?_getD, List.getElem?_eq_getElem hi, List.get_eq_getElem]
  · exfalso
    rcases Nat.lt_or_ge j i with hji | hji
    · have := (cocCmp_lt_iff _ _).mp (hlts j hj hji)
      omega
    · have := (cocCmp_gt_iff _ _).mp (hgts j hj hji)
      omega

theorem coc_miss [Inhabited B] (src : Nat → Except E (B × Nat × Nat)) (cycle : Nat)
    (cache : List (CEntry B)) (delta0 i : Nat) (f : B) (ft tl : Nat)
    (hb : bsearch cache (delta0 % cycle % 2 ^ 64) = .error i)
    (hs : src (delta0 % cycle % 2 ^ 64) = .ok (f, ft, tl)) :
    cocCommandBuffer src cycle cache delta0
      = (.ok ⟨f, ft, tl⟩, listInsertAt cache i
          ⟨delta0 % cycle % 2 ^ 64 + tl - ft, delta0 % cycle % 2 ^ 64 + tl, f⟩) := by
  simp only [cocCommandBuffer]
  rw [hb, hs]

theorem cocGood_step [Inhabited B] {cells : Nat → Nat × Nat} (hc : IsCells cells)
    {src : Nat → Except E (B × Nat × Nat)} (hsrc : SrcFollows src cells)
    (cycle : Nat) {cache : List (CEntry B)} (hg : cocGood cells cache) (delta0 : Nat) :
    cocGood cells (cocCommandBuffer src cycle cache delta0).2 := by
  have hvalid := cocGood_valid hc hg
  rcases bsearch_char cache (delta0 % cycle % 2 ^ 64) hg.2 hvalid with
    ⟨i, hi, hok, _⟩ | ⟨i, hile, herr, hlts, hgts⟩
  · simp only [cocCommandBuffer]
    rw [hok]
    exact hg
  · cases hsv : src (delta0 % cycle % 2 ^ 64) with
    | error e =>
      simp only [cocCommandBuffer]
      rw [herr, hsv]
      exact hg
    | ok t =>
      obtain ⟨f, ft, tl⟩ := t
      obtain ⟨hend, hft⟩ := hsrc _ f ft tl hsv
      have hown := hc.1 (delta0 % cycle % 2 ^ 64)
      have hstart : delta0 % cycle % 2 ^ 64 + tl - ft = (cells (delta0 % cycle % 2 ^ 64)).1 := by
        omega
      simp only [cocCommandBuffer]
      rw [herr, hsv]
      show cocGood cells (listInsertAt cache i _)
      rw [hstart, hend]
      apply cocGood_insert hc hg (delta0 % cycle % 2 ^ 64) i f
      · intro j hj hji
        exact (cocCmp_lt_iff _ _).mp (hlts j hj hji)
      · intro j hj hji
        exact ((cocCmp_gt_iff _ _).mp (hgts j hj hji)).2

theorem cocGood_run [Inhabited B] {cells : Nat → Nat × Nat} (hc : IsCells cells)
    {src : Nat → Except E (B × Nat × Nat)} (hsrc : SrcFollows src cells) (cycle : Nat) :
    ∀ (deltas : List Nat) (cache : List (CEntry B)), cocGood cells cache →
      cocGood cells (cocRun src cycle cache deltas) := by
  intro deltas
  induction deltas with
  | nil =>
    intro cache hg
    exact hg
  | cons d ds ih =>
    intro cache hg
    exact ih _ (cocGood_step hc hsrc cycle hg d)

/-- C8 (amended): with the query reduced as the source reduces it, a hit on a
stored interval (under the cache invariant) returns the stored buffer with
`frame_time = end - start` and `time_left = end - delta`; a miss queries the
inner source and inserts `[end - frame_time, end)` at the search's insertion
point; and when the inner source answers according to a fixed partition of the
timeline, every query — and hence any sequence of queries — preserves the
invariant that the stored intervals are cells, pairwise non-overlapping, and
sorted by `start` in descending order. -/
theorem compute_once_cache_spec (B E : Type) [Inhabited B]
    (src : Nat → Except E (B × Nat × Nat)) (cycle : Nat) (cache : List (CEntry B))
    (delta0 : Nat) (cells : Nat → Nat × Nat)
    (hc : IsCells cells) (hsrc : SrcFollows src cells) :
    (cocGood cells cache → ∀ j (hj : j < cache.length),
      (cache.get ⟨j, hj⟩).start ≤ delta0 % cycle % 2 ^ 64 →
      delta0 % cycle % 2 ^ 64 < (cache.get ⟨j, hj⟩).stop →
      cocCommandBuffer src cycle cache delta0
        = (.ok ⟨(cache.get ⟨j, hj⟩).buf,
            (cache.get ⟨j, hj⟩).stop - (cache.get ⟨j, hj⟩).start,
            (cache.get ⟨j, hj⟩).stop - delta0 % cycle % 2 ^ 64⟩, cache))
    ∧ (∀ i f ft tl, bsearch cache (delta0 % cycle % 2 ^ 64) = .error i →
        src (delta0 % cycle % 2 ^ 64) = .ok (f, ft, tl) →
        cocCommandBuffer src cycle cache delta0
          = (.ok ⟨f, ft, tl⟩, listInsertAt cache i
              ⟨delta0 % cycle % 2 ^ 64 + tl - ft, delta0 % cycle % 2 ^ 64 + tl, f⟩))
    ∧ (cocGood cells cache → cocGood cells (cocCommandBuffer src cycle cache delta0).2)
    ∧ (∀ deltas, cocGood cells cache → cocGood cells (cocRun src cycle cache deltas)) := by
  refine ⟨?_, ?_, ?_, ?_⟩
  · intro hg j hj hs he
    exact coc_hit hc src cycle hg delta0 j hj hs he
  · intro i f ft tl hb hs
    exact coc_miss src cycle cache delta0 i f ft tl hb hs
  · intro hg
    exact cocGood_step hc hsrc cycle hg delta0
  · intro deltas hg
    exact cocGood_run hc hsrc cycle deltas cache hg

/-- Witness for `compute_once_cache_spec`: the 10ns-cell source keeps the
invariant over the query sequence `[5, 15]` starting from the empty cache. -/
theorem compute_once_cache_spec_witness :
    IsCells (fun d => (d / 10 * 10, d / 10 * 10 + 10))
    ∧ SrcFollows (fun d => Except.ok (0, 10, 10 - d % 10) : Nat → Except Nat (Nat × Nat × Nat))
        (fun d => (d / 10 * 10, d / 10 * 10 + 10))
    ∧ cocGood (fun d => (d / 10 * 10, d / 10 * 10 + 10)) ([] : List (CEntry Nat))
    ∧ cocGood (fun d => (d / 10 * 10, d / 10 * 10 + 10))
        (cocRun (fun d => Except.ok (0, 10, 10 - d % 10) : Nat → Except Nat (Nat × Nat × Nat))
          20 [] [5, 15]) := by
  have hc : IsCells (fun d => (d / 10 * 10, d / 10 * 10 + 10)) := by
    constructor
    · intro d
      constructor <;> simp <;> omega
    · intro d d2 h1 h2
      simp only at h1 h2 ⊢
      have hq : d2 / 10 = d / 10 := by omega
      rw [hq]
  have hsrc : SrcFollows
      (fun d => Except.ok (0, 10, 10 - d % 10) : Nat → Except Nat (Nat × Nat × Nat))
      (fun d => (d / 10 * 10, d / 10 * 10 + 10)) := by
    intro d f ft tl h
    simp only [Except.ok.injEq, Prod.mk.injEq] at h
    obtain ⟨h1, h2, h3⟩ := h
    subst h2
    subst h3
    constructor <;> simp <;> omega
  have hempty : cocGood (fun d => (d / 10 * 10, d / 10 * 10 + 10)) ([] : List (CEntry Nat)) := by
    constructor
    · intro en hen
      simp at hen
    · exact List.Pairwise.nil
  exact ⟨hc, hsrc, hempty,
    (compute_once_cache_spec Nat Nat _ 20 [] 5 _ hc hsrc).2.2.2 [5, 15] hempty⟩

/-- C8 (counterexample): querying the compute-once cache at `5` then `15`
against a consistent 10ns-cell source stores `[10,20)` before `[0,10)` — not
sorted by `start` in ascending order; and a source satisfying only
`time_left <= frame_time` (answering `[0,10)` below 10 and `[0,20)` from 10 on)
yields overlapping stored intervals after the queries `5` then `12`. -/
theorem compute_once_cache_counterexample :
    cocRun (fun d => Except.ok (0, 10, 10 - d % 10) : Nat → Except Nat (Nat × Nat × Nat)) 20
        [] [5, 15]
      = [⟨10, 20, 0⟩, ⟨0, 10, 0⟩]
    ∧ ¬ ([(⟨10, 20, 0⟩ : CEntry Nat), ⟨0, 10, 0⟩].Pairwise (fun a b => a.start ≤ b.start))
    ∧ ((fun d => if d < 10 then Except.ok (0, 10, 10 - d) else Except.ok (0, 20, 20 - d)
          : Nat → Except Nat (Nat × Nat × Nat)) 5 = .ok (0, 10, 5))
    ∧ ((fun d => if d < 10 then Except.ok (0, 10, 10 - d) else Except.ok (0, 20, 20 - d)
          : Nat → Except Nat (Nat × Nat × Nat)) 12 = .ok (0, 20, 8))
    ∧ cocRun (fun d => if d < 10 then Except.ok (0, 10, 10 - d) else Except.ok (0, 20, 20 - d)
          : Nat → Except Nat (Nat × Nat × Nat)) 20 [] [5, 12]
      = [⟨0, 20, 0⟩, ⟨0, 10, 0⟩]
    ∧ ¬ ([(⟨0, 20, 0⟩ : CEntry Nat), ⟨0, 10, 0⟩].Pairwise
          (fun a b => b.stop ≤ a.start ∨ a.stop ≤ b.start)) := by
  refine ⟨by decide, by decide, rfl, rfl, by decide, by decide⟩

/-! ### Connection engine completion handling (src/epizentrum/src/flut_op.rs)

Command buffers are byte lists; kernel submission-queue pushes are modelled as
always succeeding (a full queue is an environment failure outside the state
machine), and socket creation likewise (its `Err` arm maps to
`ControlFlowError::Io`). -/

/-- Address family of a socket address. -/
inductive AddrFam where
  | V4
  | V6
deriving DecidableEq

/-- A peer socket address (`OsSocketAddr`), abstracted to family plus identity. -/
structure Addr where
  fam : AddrFam
  id : Nat
deriving DecidableEq

/-- Models `socket2::Socket`: only the address family chosen at
`Socket::new(Domain::IPV4/IPV6, Type::STREAM, Some(Protocol::TCP))` matters here. -/
structure Socket where
  fam : AddrFam
deriving DecidableEq

/-- A submission-queue entry.  `write sock buf off len` is
`opcode::Write::new(Fd(sock), buf.as_ptr().add(off), len)`; `timeout n link` is
`opcode::Timeout` of `n` nanoseconds, with `link` recording an `IO_LINK` flag;
`connect` is `opcode::Connect`. -/
inductive Entry where
  | write (sock : Socket) (buffer : List Nat) (off len : Nat)
  | timeout (nanos : Nat) (ioLink : Bool)
  | connect (sock : Socket) (addr : Addr)
deriving DecidableEq

/-- Mirrors `enum FlutOpData` (the `backoff_timespec` field always equals
`backoff`, so a single nanosecond count stands for both). -/
inductive FlutOpData where
  | ConnectionEstablished (connection_id : Nat) (socket : Socket) (addr : Addr)
      (source_index : Nat) (last_buffer : Option (List Nat × Nat))
  | Reconnecting (connection_id : Nat) (socket : Socket) (addr : Addr)
      (source_index : Nat) (backoff : Nat) (reconnects : Nat)
  | Backoff (entry : Entry) (data : FlutOpData)
deriving DecidableEq

/-- Mirrors `rummelplatz::ControlFlow` as used by `FlutOp::on_completion`
(`Error` carries the buffer-source error). -/
inductive EngineFlow (E : Type) where
  | Continue
  | Exit
  | Error (e : E)
deriving DecidableEq

/-- The fields of `struct FlutOp` that `on_completion` reads or writes; a
buffer source is its `command_buffer` function from elapsed anchor time to a
`Timing` of bytes. -/
structure FlutOp (E : Type) where
  reconnect_backoff_limit : Option Nat
  reconnect_limit : Option Nat
  connections : Nat
  command_buffer_sources : List (Nat → Except E (Timing (List Nat)))

/-- Mirrors `FlutOp::on_completion`.  `result` is the kernel completion result,
`elapsed` the value of `self.time_anchor.elapsed()` during this call.  Returns
the control flow, the updated state and the submissions pushed, or `none` where
the source panics (`unreachable!()` and out-of-bounds source indexing). -/
def onCompletion (st : FlutOp E) (elapsed : Nat) (result : Int) (rd : FlutOpData) :
    Option (EngineFlow E × FlutOp E × List (Entry × FlutOpData)) :=
  match rd with
  | .ConnectionEstablished cid socket addr si last_buffer =>
    if result ≤ 0 then
      let st1 := if st.reconnect_limit = some 0
        then { st with connections := st.connections - 1 } else st
      if st.reconnect_limit = some 0 ∧ st1.connections = 0 then
        some (.Exit, st1, [])
      else
        let sock2 : Socket := ⟨addr.fam⟩
        some (.Continue, st1,
          [(Entry.timeout 1000000000 true,
            .Backoff (Entry.connect sock2 addr)
              (.Reconnecting cid sock2 addr si 1000000000 1))])
    else
      match last_buffer with
      | some (buf, written) =>
        if written + result.toNat = buf.length then
          match st.command_buffer_sources.get? si with
          | none => none
          | some src =>
            match src elapsed with
            | .error e => some (.Error e, st, [])
            | .ok timing =>
              some (.Continue, st,
                [(Entry.write socket timing.frame 0 timing.frame.length,
                  .ConnectionEstablished cid socket addr
                    ((si + 1) % st.command_buffer_sources.length)
                    (some (timing.frame, 0)))])
        else
          some (.Continue, st,
            [(Entry.write socket buf (written + result.toNat)
                (buf.length - written - result.toNat),
              .ConnectionEstablished cid socket addr si
                (some (buf, written + result.toNat)))])
      | none => none
  | .Reconnecting cid socket addr si backoff reconnects =>
    if result < 0 then
      let retire : Bool := match st.reconnect_limit with
        | some limit => decide (reconnects ≤ limit)
        | none => false
      let st1 := if retire then { st with connections := st.connections - 1 } else st
      if retire ∧ st1.connections = 0 then
        some (.Exit, st1, [])
      else
        let backoff2 := match st.reconnect_backoff_limit with
          | none => backoff * 2
          | some limit => min (backoff * 2) limit
        some (.Continue, st1,
          [(Entry.timeout backoff2 false,
            .Backoff (Entry.connect socket addr)
              (.Reconnecting cid socket addr si backoff2 (reconnects + 1)))])
    else if result = 0 then
      match st.command_buffer_sources.get? si with
      | none => none
      | some src =>
        match src elapsed with
        | .error e => some (.Error e, st, [])
        | .ok timing =>
          some (.Continue, st,
            [(Entry.write socket timing.frame 0 timing.frame.length,
              .ConnectionEstablished cid socket addr
                ((si + 1) % st.command_buffer_sources.length)
                (some (timing.frame, 0)))])
    else none
  | .Backoff entry data => some (.Continue, st, [(entry, data)])

theorem onCompletion_partial (E : Type) (st : FlutOp E) (elapsed : Nat) (cid : Nat)
    (sock : Socket) (addr : Addr) (si : Nat) (buf : List Nat) (written n : Nat)
    (hn : 0 < n) (hrem : written + n < buf.length) :
    onCompletion st elapsed (n : Int)
        (.ConnectionEstablished cid sock addr si (some (buf, written)))
      = some (.Continue, st,
          [(Entry.write sock buf (written + n) (buf.length - written - n),
            .ConnectionEstablished cid sock addr si (some (buf, written + n)))]) := by
  have h1 : ¬ ((n : Int) ≤ 0) := by omega
  have h2 : ¬ (written + ((n : Int)).toNat = buf.length) := by omega
  simp only [onCompletion]
  rw [if_neg h1, if_neg h2]
  simp

/-- C4: on a `ConnectionEstablished` completion with cursor `(buffer, written)`
and kernel result `n`, `0 < n < buffer.len - written`, the engine re-submits a
write of exactly `buffer.len - written - n` bytes at offset `written + n` of
the same buffer, with the same `source_index` and the cursor advanced to
`written + n`; in particular on the first write (`written = 0`) it is a write
of `buffer.len - n` bytes at offset `n`. -/
theorem partial_write_spec (E : Type) (st : FlutOp E) (elapsed : Nat) (cid : Nat)
    (sock : Socket) (addr : Addr) (si : Nat) (buf : List Nat) (written n : Nat)
    (hn : 0 < n) (hrem : written + n < buf.length) :
    (onCompletion st elapsed (n : Int)
        (.ConnectionEstablished cid sock addr si (some (buf, written)))
      = some (.Continue, st,
          [(Entry.write sock buf (written + n) (buf.length - written - n),
            .ConnectionEstablished cid sock addr si (some (buf, written + n)))]))
    ∧ (onCompletion st elapsed (n : Int)
        (.ConnectionEstablished cid sock addr si (some (buf, 0)))
      = some (.Continue, st,
          [(Entry.write sock buf n (buf.length - n),
            .ConnectionEstablished cid sock addr si (some (buf, n)))])) := by
  constructor
  · exact onCompletion_partial E st elapsed cid sock addr si buf written n hn hrem
  · have h := onCompletion_partial E st elapsed cid sock addr si buf 0 n hn (by omega)
    simpa using h

/-- Witness for `partial_write_spec`: a 4-byte buffer, one byte already written,
kernel result 2. -/
theorem partial_write_spec_witness :
    (0 < 2 ∧ 1 + 2 < ([1, 2, 3, 4] : List Nat).length)
    ∧ onCompletion (⟨none, none, 1, []⟩ : FlutOp Nat) 0 ((2 : Nat) : Int)
        (.ConnectionEstablished 0 ⟨.V4⟩ ⟨.V4, 0⟩ 0 (some ([1, 2, 3, 4], 1)))
      = some (.Continue, ⟨none, none, 1, []⟩,
          [(Entry.write ⟨.V4⟩ [1, 2, 3, 4] 3 1,
            .ConnectionEstablished 0 ⟨.V4⟩ ⟨.V4, 0⟩ 0 (some ([1, 2, 3, 4], 3)))]) :=
  ⟨⟨by decide, by decide⟩,
    (partial_write_spec Nat ⟨none, none, 1, []⟩ 0 0 ⟨.V4⟩ ⟨.V4, 0⟩ 0 [1, 2, 3, 4] 1 2
      (by decide) (by decide)).1⟩

/-- C2 (code divergence): on a failed reconnect (`result < 0`) with
`reconnect_limit = 5`, the source's `limit >= reconnects` check fires already at
`reconnects = 1` — the connection counter is decremented even though the limit
is not exhausted — and a doubled-backoff timeout+connect pair is submitted
anyway; conversely at `reconnects = 6 > limit` nothing is retired and the
engine keeps reconnecting. -/
theorem reconnect_limit_eval :
    onCompletion (⟨none, some 5, 2, []⟩ : FlutOp Nat) 0 (-1)
        (.Reconnecting 0 ⟨.V4⟩ ⟨.V4, 0⟩ 0 1000000000 1)
      = some (.Continue, ⟨none, some 5, 1, []⟩,
          [(Entry.timeout 2000000000 false,
            .Backoff (Entry.connect ⟨.V4⟩ ⟨.V4, 0⟩)
              (.Reconnecting 0 ⟨.V4⟩ ⟨.V4, 0⟩ 0 2000000000 2))])
    ∧ onCompletion (⟨none, some 5, 2, []⟩ : FlutOp Nat) 0 (-1)
        (.Reconnecting 0 ⟨.V4⟩ ⟨.V4, 0⟩ 0 1000000000 6)
      = some (.Continue, ⟨none, some 5, 2, []⟩,
          [(Entry.timeout 2000000000 false,
            .Backoff (Entry.connect ⟨.V4⟩ ⟨.V4, 0⟩)
              (.Reconnecting 0 ⟨.V4⟩ ⟨.V4, 0⟩ 0 2000000000 7))]) :=
  ⟨rfl, rfl⟩

/-- C3 (code divergence): on a dead connection (`result <= 0`) with
`reconnect_limit = 0` and other connections still alive, the engine decrements
the counter but still builds a fresh socket of the peer's family and submits
the 1-second linked timeout+connect with `reconnects = 1`; only when the last
connection dies does it exit without scheduling anything. -/
theorem reconnect_zero_eval :
    onCompletion (⟨none, some 0, 2, []⟩ : FlutOp Nat) 0 0
        (.ConnectionEstablished 0 ⟨.V6⟩ ⟨.V4, 7⟩ 3 (some ([1, 2], 0)))
      = some (.Continue, ⟨none, some 0, 1, []⟩,
          [(Entry.timeout 1000000000 true,
            .Backoff (Entry.connect ⟨.V4⟩ ⟨.V4, 7⟩)
              (.Reconnecting 0 ⟨.V4⟩ ⟨.V4, 7⟩ 3 1000000000 1))])
    ∧ onCompletion (⟨none, some 0, 1, []⟩ : FlutOp Nat) 0 0
        (.ConnectionEstablished 0 ⟨.V6⟩ ⟨.V4, 7⟩ 3 (some ([1, 2], 0)))
      = some (.Exit, ⟨none, some 0, 0, []⟩, []) :=
  ⟨rfl, rfl⟩

end Tsunami
